import Mathlib

/-!
Verification of the rosedblabs/rust-practice repository: a shallow embedding of
the MiniBitcask append-only log store (src/bitcask.rs) and of the in-memory
MVCC transaction layer (mvcc/src/main.rs), with theorems checking the
natural-language specification against the code.

Bytes are modelled as natural numbers, byte strings as `List Nat`, the two
`BTreeMap`s (the bitcask KeyDir and the MVCC `KVEngine`) as association lists
kept sorted in strictly ascending unsigned-lexicographic key order, and the
`HashMap` of active transactions as an (unordered) association list.  Machine
integers are `Nat` with an explicit `% 2^w` wherever the code casts or can
wrap.  Fallible operations return `Except`; `Outcome` additionally separates a
Rust panic (process abort) from an error value returned to the caller.
-/

/-- Rust's `Ord` on `Vec<u8>`: strict unsigned byte-wise lexicographic order,
with a proper prefix ordered before its extensions. -/
def lexLt : List Nat → List Nat → Bool
  | [], [] => false
  | [], _ :: _ => true
  | _ :: _, [] => false
  | a :: x, b :: y => if a < b then true else if a = b then lexLt x y else false

/-- Result of running a piece of Rust code: a value, an error value returned
to the caller (`Err`), or a panic that aborts the process. -/
inductive Outcome (α : Type) where
  | ok (a : α)
  | err (msg : String)
  | panicked (msg : String)
deriving DecidableEq

/-- Whether the run produced a value (no error, no panic). -/
def Outcome.isOk {α : Type} : Outcome α → Bool
  | .ok _ => true
  | _ => false

/-- `BTreeMap::insert` on an association list sorted by `lexLt`: replaces the
entry of an existing key, otherwise inserts at the ordered position. -/
def mapInsert {α : Type} : List (List Nat × α) → List Nat → α → List (List Nat × α)
  | [], k, v => [(k, v)]
  | (k1, v1) :: rest, k, v =>
    if lexLt k k1 then (k, v) :: (k1, v1) :: rest
    else if k = k1 then (k, v) :: rest
    else (k1, v1) :: mapInsert rest k v

/-- `BTreeMap::remove`: drops the entry of the key (a sorted map holds it at
most once). -/
def mapErase {α : Type} (m : List (List Nat × α)) (k : List Nat) : List (List Nat × α) :=
  m.filter (fun e => e.1 != k)

/-- `BTreeMap::get`. -/
def mapLookup {α : Type} (m : List (List Nat × α)) (k : List Nat) : Option α :=
  (m.find? (fun e => e.1 == k)).map (fun e => e.2)

/-- Whether the map holds an entry for the key. -/
def mapContains {α : Type} (m : List (List Nat × α)) (k : List Nat) : Bool :=
  (m.find? (fun e => e.1 == k)).isSome

/-! ## The MVCC layer (mvcc/src/main.rs) -/

/-- The storage engine `pub type KVEngine = BTreeMap<Vec<u8>, Option<Vec<u8>>>`,
keyed by encoded versioned keys; `None` is a tombstone. -/
abbrev KVEngine := List (List Nat × Option (List Nat))

/-- The active-transaction registry `ACTIVE_TXN: HashMap<u64, Vec<Vec<u8>>>`:
transaction version to the list of keys it has written. -/
abbrev Registry := List (Nat × List (List Nat))

/-- `struct Key { raw_key: Vec<u8>, version: u64 }`. -/
structure Key where
  raw_key : List Nat
  version : Nat
deriving DecidableEq

/-- Little-endian fixed-width byte serialization: `w` bytes of `n`, least
significant first (bincode 1.x legacy config writes integers this way). -/
def leBytes : Nat → Nat → List Nat
  | 0, _ => []
  | w + 1, n => n % 256 :: leBytes w (n / 256)

/-- The value of a little-endian byte list. -/
def desBytes : List Nat → Nat
  | [] => 0
  | b :: bs => b + 256 * desBytes bs

/-- `Key::encode`, i.e. `bincode::serialize(&Key)` with bincode's legacy
config: a `u64` little-endian length prefix, the raw key bytes, then the
`u64` version little-endian. -/
def Key.encode (k : Key) : List Nat :=
  leBytes 8 k.raw_key.length ++ k.raw_key ++ leBytes 8 k.version

/-- `decode_key`, i.e. `bincode::deserialize::<Key>`: reads the length prefix,
the raw key and the version; `none` models the `Err` that the callers unwrap
(turning it into a panic). -/
def decode_key (b : List Nat) : Option Key :=
  if b.length < 8 then none
  else
    let len := desBytes (b.take 8)
    let rest := b.drop 8
    if rest.length < len + 8 then none
    else some { raw_key := rest.take len, version := desBytes ((rest.drop len).take 8) }

/-- `struct Transaction`: its version and the snapshot of active transaction
ids captured at begin (the engine reference is passed explicitly). -/
structure Transaction where
  version : Nat
  active_xid : List Nat

/-- `Transaction::is_visible`: a version is invisible if it belongs to a
transaction that was active at begin, or is newer than our own. -/
def is_visible (t : Transaction) (v : Nat) : Bool :=
  if t.active_xid.contains v then false else decide (v ≤ t.version)

/-- The key set of the registry (`active_txn.keys()`). -/
def regKeys (reg : Registry) : List Nat :=
  reg.map (fun e => e.1)

/-- `HashMap::insert` on the registry: replace or add. -/
def regInsert : Registry → Nat → List (List Nat) → Registry
  | [], v, ws => [(v, ws)]
  | (w, ks) :: rest, v, ws =>
    if w = v then (v, ws) :: rest else (w, ks) :: regInsert rest v ws

/-- `active_txn.entry(version).and_modify(|keys| keys.push(key)).or_insert(vec![key])`. -/
def regPush : Registry → Nat → List Nat → Registry
  | [], v, k => [(v, [k])]
  | (w, ks) :: rest, v, k =>
    if w = v then (w, ks ++ [k]) :: rest else (w, ks) :: regPush rest v k

/-- `HashMap::get` on the registry. -/
def regLookup (reg : Registry) (v : Nat) : Option (List (List Nat)) :=
  (reg.find? (fun e => e.1 == v)).map (fun e => e.2)

/-- `HashMap::remove` on the registry. -/
def regErase (reg : Registry) (v : Nat) : Registry :=
  reg.filter (fun e => e.1 != v)

/-- `Transaction::begin` given the version handed out by the global counter:
capture the currently active ids BEFORE inserting our own version, then
register our version with an empty write list. -/
def beginTxn (version : Nat) (reg : Registry) : Transaction × Registry :=
  ({ version := version, active_xid := regKeys reg }, regInsert reg version [])

/-- The conflict loop of `Transaction::write`: walk the engine in descending
encoded-key order, decode each key, and at the FIRST entry whose raw key
matches the target stop: panic with a serialization error if its version is
not visible, otherwise accept.  The argument list is the engine already
reversed. -/
def conflictScan (t : Transaction) (key : List Nat) : List (List Nat × Option (List Nat)) → Outcome Unit
  | [] => .ok ()
  | (ek, _) :: rest =>
    match decode_key ek with
    | none => .panicked "deserialize error"
    | some kv =>
      if kv.raw_key = key then
        if is_visible t kv.version then .ok () else .panicked "serialization error, try again."
      else conflictScan t key rest

/-- `Transaction::write`: conflict check, then record the key in the write
set of the registry and insert the versioned record into the engine. -/
def txnWrite (t : Transaction) (reg : Registry) (kv : KVEngine) (key : List Nat)
    (value : Option (List Nat)) : Outcome (Registry × KVEngine) :=
  match conflictScan t key kv.reverse with
  | .panicked m => .panicked m
  | .err m => .err m
  | .ok _ =>
    .ok (regPush reg t.version key,
      mapInsert kv (Key.encode { raw_key := key, version := t.version }) value)

/-- `Transaction::set`. -/
def txnSet (t : Transaction) (reg : Registry) (kv : KVEngine) (key value : List Nat) :
    Outcome (Registry × KVEngine) :=
  txnWrite t reg kv key (some value)

/-- `Transaction::delete`: a write whose value is absent (tombstone). -/
def txnDelete (t : Transaction) (reg : Registry) (kv : KVEngine) (key : List Nat) :
    Outcome (Registry × KVEngine) :=
  txnWrite t reg kv key none

/-- `Transaction::commit`: deregister from the active registry. -/
def txnCommit (t : Transaction) (reg : Registry) : Registry :=
  regErase reg t.version

/-- The removal loop of `Transaction::rollback`: remove each written
`(raw_key, version)` entry, asserting that every removal finds its entry
(`assert!(res.is_some())`); a failed assertion is a panic. -/
def removeAll (v : Nat) : List (List Nat) → KVEngine → Outcome KVEngine
  | [], kv => .ok kv
  | k :: ks, kv =>
    let ek := Key.encode { raw_key := k, version := v }
    if mapContains kv ek then removeAll v ks (mapErase kv ek)
    else .panicked "assertion failed: res.is_some()"

/-- `Transaction::rollback`: look up our write set, remove every entry we
wrote from the engine (asserting each removal succeeds), then deregister. -/
def txnRollback (t : Transaction) (reg : Registry) (kv : KVEngine) :
    Outcome (Registry × KVEngine) :=
  match regLookup reg t.version with
  | some keys =>
    match removeAll t.version keys kv with
    | .ok kv1 => .ok (regErase reg t.version, kv1)
    | .err m => .err m
    | .panicked m => .panicked m
  | none => .ok (regErase reg t.version, kv)

/-! ## The MiniBitcask store (src/bitcask.rs) -/

/-- Big-endian `u32` bytes of `n` (`u32::to_be_bytes`, `i32::to_be_bytes` on
the same bit pattern). -/
def be32 (n : Nat) : List Nat :=
  [n / 16777216 % 256, n / 65536 % 256, n / 256 % 256, n % 256]

/-- The value of a 4-byte big-endian header field (`u32::from_be_bytes`). -/
def beVal (bs : List Nat) : Nat :=
  bs.foldl (fun acc b => acc * 256 + b) 0

/-- The `VL` header field: the value length as `u32`, or the bit pattern of
`-1i32` (`0xFFFFFFFF`) for a tombstone. -/
def vlField : Option (List Nat) → Nat
  | some v => v.length % 4294967296
  | none => 4294967295

/-- `Log::write_entry`: seek to the end (the record offset), append
`KL (u32 be) | VL (i32 be) | key | value?`, and return
`(record_offset, record_total_length)`.  The `usize → u32` casts and the
`u32` length addition wrap modulo `2^32` (release-mode semantics). -/
def write_entry (file : List Nat) (key : List Nat) (value : Option (List Nat)) :
    List Nat × Nat × Nat :=
  let key_len := key.length % 4294967296
  let value_len := match value with | some v => v.length % 4294967296 | none => 0
  let len := (8 + key_len + value_len) % 4294967296
  (file ++ be32 key_len ++ be32 (vlField value) ++ key ++ value.getD [], file.length, len)

/-- The in-memory index `KeyDir: BTreeMap<Vec<u8>, (u64, u32)>`, mapping a
key to the offset and length of its current value in the log. -/
abbrev KeyDir := List (List Nat × Nat × Nat)

/-- `struct MiniBitcask`: the log file contents and the KeyDir. -/
structure MiniBitcask where
  file : List Nat
  keydir : KeyDir

/-- `Log::read_value`: seek to `value_pos` and read exactly `value_len`
bytes; a short read is an error. -/
def read_value (file : List Nat) (value_pos value_len : Nat) : Except String (List Nat) :=
  if value_pos + value_len ≤ file.length then .ok ((file.drop value_pos).take value_len)
  else .error "failed to fill whole buffer"

/-- `MiniBitcask::set`: append a record, then point the KeyDir at the value
bytes just written: `(offset + len - value_len, value_len)`. -/
def bcSet (st : MiniBitcask) (key value : List Nat) : MiniBitcask :=
  let r := write_entry st.file key (some value)
  let value_len := value.length % 4294967296
  { file := r.1, keydir := mapInsert st.keydir key (r.2.1 + r.2.2 - value_len, value_len) }

/-- `MiniBitcask::get`: consult the KeyDir only; on a hit read the value
bytes from the log, on a miss return `None`. -/
def bcGet (st : MiniBitcask) (key : List Nat) : Except String (Option (List Nat)) :=
  match mapLookup st.keydir key with
  | some (value_pos, value_len) => (read_value st.file value_pos value_len).map some
  | none => .ok none

/-- `MiniBitcask::delete`: append a tombstone record, then drop the KeyDir
entry. -/
def bcDelete (st : MiniBitcask) (key : List Nat) : MiniBitcask :=
  { file := (write_entry st.file key none).1, keydir := mapErase st.keydir key }

/-- `MiniBitcask::merge`: `todo!()` -- panics, it never returns. -/
def merge : Outcome Unit :=
  .panicked "not yet implemented"

/-- The loop of `Log::load_index`: while the cursor is before end-of-file,
read the two 4-byte header fields and the key (a short read is an error),
record `key -> (value_pos, VL)` if `VL >= 0` as an `i32` (i.e. below `2^31`
unsigned) and skip the value without reading it, otherwise remove `key`;
advance the cursor past the record. -/
def loadIndexLoop (file : List Nat) (pos : Nat) (kd : KeyDir) : Except String KeyDir :=
  if h : pos < file.length then
    let rest := file.drop pos
    if rest.length < 4 then .error "failed to fill whole buffer"
    else
      let key_len := beVal (rest.take 4)
      if rest.length < 8 then .error "failed to fill whole buffer"
      else
        let vl_raw := beVal ((rest.drop 4).take 4)
        let value_pos := pos + 8 + key_len
        if rest.length < 8 + key_len then .error "failed to fill whole buffer"
        else
          let key := (rest.drop 8).take key_len
          if vl_raw < 2147483648 then
            loadIndexLoop file (value_pos + vl_raw) (mapInsert kd key (value_pos, vl_raw))
          else
            loadIndexLoop file value_pos (mapErase kd key)
  else .ok kd
termination_by file.length - pos
decreasing_by
  · omega
  · omega

/-- `Log::load_index`: scan the whole log from offset 0 into a fresh KeyDir. -/
def load_index (file : List Nat) : Except String KeyDir :=
  loadIndexLoop file 0 []

/-- A store operation: `set key value` or `delete key`. -/
inductive Op where
  | set (key value : List Nat)
  | del (key : List Nat)

/-- The key an operation touches. -/
def opKey : Op → List Nat
  | .set k _ => k
  | .del k => k

/-- Apply one operation to the store. -/
def applyOp (st : MiniBitcask) : Op → MiniBitcask
  | .set k v => bcSet st k v
  | .del k => bcDelete st k

/-- Apply a sequence of operations to the store. -/
def applyOps (st : MiniBitcask) (ops : List Op) : MiniBitcask :=
  ops.foldl applyOp st

/-- A freshly created store over an empty log. -/
def initStore : MiniBitcask :=
  { file := [], keydir := [] }

/-- The bytes of the log record an operation appends. -/
def recordBytes : Op → List Nat
  | .set k v => be32 (k.length % 4294967296) ++ be32 (v.length % 4294967296) ++ k ++ v
  | .del k => be32 (k.length % 4294967296) ++ be32 4294967295 ++ k

/-- The concatenated log written by a sequence of operations. -/
def encodeOps : List Op → List Nat
  | [] => []
  | op :: rest => recordBytes op ++ encodeOps rest

/-- A record is representable: the key length fits the `u32` header together
with the 8 header bytes and the value length, and a value length is
non-negative as an `i32`. -/
def WfOp : Op → Prop
  | .set k v => 8 + k.length + v.length < 4294967296 ∧ v.length < 2147483648
  | .del k => 8 + k.length < 4294967296

/-- The KeyDir update a record at offset `pos` performs during replay. -/
def applyRec (kd : KeyDir) (op : Op) (pos : Nat) : KeyDir :=
  match op with
  | .set k v => mapInsert kd k (pos + 8 + k.length, v.length)
  | .del k => mapErase kd k

/-- Replay a sequence of records starting at offset `pos`. -/
def applyRecs (kd : KeyDir) (pos : Nat) : List Op → KeyDir
  | [] => kd
  | op :: rest => applyRecs (applyRec kd op pos) (pos + (recordBytes op).length) rest

/-- Each operation paired with the file offset of its record. -/
def annotateOps (pos : Nat) : List Op → List (Op × Nat)
  | [] => []
  | op :: rest => (op, pos) :: annotateOps (pos + (recordBytes op).length) rest

/-- Turns the most recent record for a key (if any) into the key's index
entry: a set points at its value bytes, a delete or no record means absent. -/
def lwwOfLast (k : List Nat) (dflt : Option (Nat × Nat)) : Option (Op × Nat) → Option (Nat × Nat)
  | some (Op.set _ v, pos) => some (pos + 8 + k.length, v.length)
  | some (Op.del _, _) => none
  | none => dflt

/-- The spec's last-writer-wins projection of an operation sequence: a key is
present, mapping to the offset and length of its most recent value, iff the
last record for it in file order is a value; absent iff the last record is a
tombstone or the key never appeared. -/
def lwwProjection (ops : List Op) (k : List Nat) : Option (Nat × Nat) :=
  lwwOfLast k none ((annotateOps 0 ops).reverse.find? (fun e => opKey e.1 == k))

/-- A `std::ops::Bound<Vec<u8>>` scan bound. -/
inductive ScanBound where
  | incl (b : List Nat)
  | excl (b : List Nat)
  | unb
deriving DecidableEq

/-- Whether a key is at or above the lower bound. -/
def lowerOk : ScanBound → List Nat → Bool
  | .incl b, k => !(lexLt k b)
  | .excl b, k => lexLt b k
  | .unb, _ => true

/-- Whether a key is at or below the upper bound. -/
def upperOk : ScanBound → List Nat → Bool
  | .incl b, k => !(lexLt b k)
  | .excl b, k => lexLt k b
  | .unb, _ => true

/-- `BTreeMap::range` panics when the start bound lies above the end bound,
or when they are equal and both exclusive. -/
def invalidRange : ScanBound → ScanBound → Bool
  | .incl s, .incl e => lexLt e s
  | .incl s, .excl e => lexLt e s
  | .excl s, .incl e => lexLt e s
  | .excl s, .excl e => lexLt e s || s == e
  | _, _ => false

/-- The KeyDir entries inside the bounds, in ascending key order (the KeyDir
is sorted, so `BTreeMap::range` yields exactly this sublist). -/
def rangeEntries (kd : KeyDir) (lo hi : ScanBound) : KeyDir :=
  kd.filter (fun e => lowerOk lo e.1 && upperOk hi e.1)

/-- `MiniBitcask::scan`: the range of KeyDir entries the `ScanIterator`
iterates over (values are materialized per entry by `read_value`). -/
def scanEntries (kd : KeyDir) (lo hi : ScanBound) : Outcome KeyDir :=
  if invalidRange lo hi then .panicked "range start is greater than range end in BTreeMap"
  else .ok (rangeEntries kd lo hi)

/-- `Iterator::next` of the underlying range: take from the front. -/
def frontTake {α : Type} : List α → Option (α × List α)
  | [] => none
  | x :: xs => some (x, xs)

/-- `DoubleEndedIterator::next_back`: take from the back. -/
def backTake {α : Type} (l : List α) : Option (α × List α) :=
  match l.reverse with
  | [] => none
  | x :: r => some (x, r.reverse)

/-- Drive the bidirectional iterator: `true` means `next`, `false` means
`next_back`; returns the items yielded in order and the unvisited rest. -/
def runIter {α : Type} : List Bool → List α → List α × List α
  | [], l => ([], l)
  | d :: ds, l =>
    match (if d then frontTake l else backTake l) with
    | none => ([], l)
    | some (x, l1) =>
      let r := runIter ds l1
      (x :: r.1, r.2)

/-- The upper-bound key `MiniBitcask::scan_prefix` computes: increment the
last byte, if any (`u8` wrap-around semantics, `*last += 1`). -/
def bumpLast (p : List Nat) : List Nat :=
  match p.reverse with
  | [] => []
  | b :: r => (((b + 1) % 256) :: r).reverse

/-- `MiniBitcask::scan_prefix`: scan `[p, bumpLast p)`. -/
def prefixScan (kd : KeyDir) (p : List Nat) : Outcome KeyDir :=
  scanEntries kd (.incl p) (.excl (bumpLast p))

/-- The spec's `next(prefix)` for a non-empty prefix: the final byte
incremented by one modulo 256. -/
def nextPfx (p : List Nat) : List Nat :=
  p.dropLast ++ [(p.getLastD 0 + 1) % 256]

/-! ## Basic facts about the lexicographic order and the sorted maps -/

theorem lexLt_irrefl (l : List Nat) : lexLt l l = false := by
  induction l with
  | nil => rfl
  | cons a x ih => simp [lexLt, ih]

theorem lexLt_nil (l : List Nat) : lexLt l [] = false := by
  cases l <;> rfl

theorem lexLt_append_left (p x y : List Nat) : lexLt (p ++ x) (p ++ y) = lexLt x y := by
  induction p with
  | nil => rfl
  | cons a q ih => simp [lexLt, ih]

theorem lexLt_between_append (p x z y : List Nat) (h1 : lexLt (p ++ x) y = true)
    (h2 : lexLt y (p ++ z) = true) : ∃ y1, y = p ++ y1 := by
  induction p generalizing y with
  | nil => exact ⟨y, rfl⟩
  | cons a q ih =>
    cases y with
    | nil => simp [lexLt_nil] at h1
    | cons b ys =>
      simp only [List.cons_append, lexLt] at h1 h2
      by_cases hab : a < b
      · by_cases hba : b < a
        · omega
        · simp [hba, show ¬ b = a by omega] at h2
      · by_cases hba : b < a
        · simp [hab, show ¬ a = b by omega] at h1
        · have hE : a = b := by omega
          simp [hab, hba, hE] at h1 h2
          obtain ⟨y1, hy⟩ := ih ys h1 h2
          exact ⟨y1, by simp [hy, hE]⟩

theorem mapLookup_cons_eq {α : Type} (m : List (List Nat × α)) (k : List Nat) (v : α) :
    mapLookup ((k, v) :: m) k = some v := by
  simp [mapLookup, List.find?]

theorem mapLookup_cons_ne {α : Type} (m : List (List Nat × α)) (k k1 : List Nat) (v : α)
    (h : k1 ≠ k) : mapLookup ((k1, v) :: m) k = mapLookup m k := by
  unfold mapLookup
  rw [List.find?_cons_of_neg _ (by simp [h])]

theorem mapLookup_insert_self {α : Type} (m : List (List Nat × α)) (k : List Nat) (v : α) :
    mapLookup (mapInsert m k v) k = some v := by
  induction m with
  | nil => simp [mapInsert, mapLookup, List.find?]
  | cons e rest ih =>
    obtain ⟨k1, v1⟩ := e
    by_cases h2 : k = k1
    · subst h2
      rw [mapInsert, if_neg (by simp [lexLt_irrefl]), if_pos rfl, mapLookup_cons_eq]
    · by_cases h1 : lexLt k k1
      · rw [mapInsert, if_pos h1, mapLookup_cons_eq]
      · rw [mapInsert, if_neg (by simp [h1]), if_neg h2,
          mapLookup_cons_ne _ _ _ _ (Ne.symm h2), ih]

theorem mapLookup_insert_ne {α : Type} (m : List (List Nat × α)) (k k1 : List Nat) (v : α)
    (h : k ≠ k1) : mapLookup (mapInsert m k1 v) k = mapLookup m k := by
  induction m with
  | nil =>
    show mapLookup [(k1, v)] k = mapLookup [] k
    rw [mapLookup_cons_ne _ _ _ _ (Ne.symm h)]
  | cons e rest ih =>
    obtain ⟨k2, v2⟩ := e
    by_cases hx : lexLt k1 k2
    · rw [mapInsert, if_pos hx, mapLookup_cons_ne _ _ _ _ (Ne.symm h)]
    · by_cases hy : k1 = k2
      · subst hy
        rw [mapInsert, if_neg (by simp [hx]), if_pos rfl,
          mapLookup_cons_ne _ _ _ _ (Ne.symm h), mapLookup_cons_ne _ _ _ _ (Ne.symm h)]
      · rw [mapInsert, if_neg (by simp [hx]), if_neg hy]
        by_cases hz : k = k2
        · subst hz
          rw [mapLookup_cons_eq, mapLookup_cons_eq]
        · rw [mapLookup_cons_ne _ _ _ _ (Ne.symm hz), mapLookup_cons_ne _ _ _ _ (Ne.symm hz), ih]

theorem mapLookup_erase_self {α : Type} (m : List (List Nat × α)) (k : List Nat) :
    mapLookup (mapErase m k) k = none := by
  induction m with
  | nil => rfl
  | cons e rest ih =>
    obtain ⟨k1, v1⟩ := e
    by_cases h : k1 = k
    · unfold mapErase at ih ⊢
      rw [List.filter_cons, if_neg (by simp [h])]
      exact ih
    · unfold mapErase at ih ⊢
      rw [List.filter_cons, if_pos (by simp [h]), mapLookup_cons_ne _ _ _ _ h]
      exact ih

theorem mapLookup_erase_ne {α : Type} (m : List (List Nat × α)) (k k1 : List Nat)
    (h : k ≠ k1) : mapLookup (mapErase m k1) k = mapLookup m k := by
  induction m with
  | nil => rfl
  | cons e rest ih =>
    obtain ⟨k2, v2⟩ := e
    by_cases hx : k2 = k1
    · subst hx
      unfold mapErase at ih ⊢
      rw [List.filter_cons, if_neg (by simp), mapLookup_cons_ne _ _ _ _ (Ne.symm h)]
      exact ih
    · unfold mapErase at ih ⊢
      rw [List.filter_cons, if_pos (by simp [hx])]
      by_cases hz : k = k2
      · subst hz
        rw [mapLookup_cons_eq, mapLookup_cons_eq]
      · rw [mapLookup_cons_ne _ _ _ _ (Ne.symm hz), mapLookup_cons_ne _ _ _ _ (Ne.symm hz)]
        exact ih

theorem mapContains_eq_lookup_isSome {α : Type} (m : List (List Nat × α)) (k : List Nat) :
    mapContains m k = (mapLookup m k).isSome := by
  simp [mapContains, mapLookup]

/-! ## C1: the visibility rule -/

/-- C1: `is_visible v` holds iff `v ≤ my_version` and `v` is not in the
captured active set; and a transaction built by `begin` from a fresh version
(one not already registered) always sees its own version, since the active
set is captured before the version is inserted. -/
theorem is_visible_iff (t : Transaction) (v : Nat) (version : Nat) (reg : Registry)
    (h : version ∉ regKeys reg) :
    (is_visible t v = true ↔ (v ≤ t.version ∧ v ∉ t.active_xid)) ∧
    is_visible (beginTxn version reg).1 (beginTxn version reg).1.version = true := by
  constructor
  · unfold is_visible
    by_cases hc : v ∈ t.active_xid
    · rw [if_pos (List.elem_iff.mpr hc)]
      simp [hc]
    · rw [if_neg (by simpa [List.elem_iff] using hc)]
      simp [hc]
  · unfold is_visible beginTxn
    simp only []
    rw [if_neg (by simpa [List.elem_iff] using h)]
    simp

/-- Witness for C1 at a concrete transaction, version and registry. -/
theorem is_visible_iff_witness :
    (7 ∉ regKeys [(2, [])]) ∧
    ((is_visible { version := 5, active_xid := [2] } 3 = true ↔ (3 ≤ 5 ∧ 3 ∉ [2])) ∧
      is_visible (beginTxn 7 [(2, [])]).1 (beginTxn 7 [(2, [])]).1.version = true) :=
  ⟨by decide, is_visible_iff { version := 5, active_xid := [2] } 3 7 [(2, [])] (by decide)⟩

/-! ## C2: conflicting writes panic instead of returning an error -/

/-- C2, evaluated at the failing input: transaction 1 begins and writes key
`[107]`; transaction 2 begins while 1 is still active (its snapshot is `[1]`)
and writes the same key.  The nearest preceding versioned record carries
version 1, which is invisible to transaction 2, and the write PANICS with
"serialization error, try again." — the process aborts; no error value is
returned to a caller that could then decide to roll back. -/
theorem conflict_write_panics :
    txnSet { version := 1, active_xid := [] } [(1, [])] [] [107] [49]
      = .ok ([(1, [[107]])], [(Key.encode { raw_key := [107], version := 1 }, some [49])]) ∧
    beginTxn 2 [(1, [[107]])]
      = ({ version := 2, active_xid := [1] }, [(1, [[107]]), (2, [])]) ∧
    txnSet { version := 2, active_xid := [1] } [(1, [[107]]), (2, [])]
        [(Key.encode { raw_key := [107], version := 1 }, some [49])] [107] [50]
      = .panicked "serialization error, try again." :=
  ⟨rfl, rfl, rfl⟩

/-! ## C9: merge panics rather than returning an error -/

/-- C9 counterexample: `merge()` does not return an "unimplemented" error
value to the caller; it is `todo!()`, which panics. -/
theorem merge_returns_no_err :
    merge = Outcome.panicked "not yet implemented" ∧ merge ≠ Outcome.err "unimplemented" :=
  ⟨rfl, by decide⟩

/-- C9 amended: calling `merge()` always panics with todo's
"not yet implemented" message; the `Result` it declares is never produced. -/
theorem merge_panics : merge = Outcome.panicked "not yet implemented" := rfl

/-! ## C3: properties of the versioned-key encoding -/

theorem leBytes_length (w n : Nat) : (leBytes w n).length = w := by
  induction w generalizing n with
  | zero => rfl
  | succ w ih => simp [leBytes, ih]

theorem desBytes_leBytes (w n : Nat) : desBytes (leBytes w n) = n % 256 ^ w := by
  induction w generalizing n with
  | zero => simp [leBytes, desBytes, Nat.mod_one]
  | succ w ih =>
    rw [leBytes, desBytes, ih, pow_succ, mul_comm (256 ^ w) 256, Nat.mod_mul]

theorem take_all_of_length_eq (l : List Nat) (n : Nat) (h : l.length = n) : l.take n = l := by
  rw [← h]
  exact List.take_length l

theorem leBytes_inj (a b : Nat) (ha : a < 2 ^ 64) (hb : b < 2 ^ 64)
    (h : leBytes 8 a = leBytes 8 b) : a = b := by
  have h1 := desBytes_leBytes 8 a
  have h2 := desBytes_leBytes 8 b
  rw [h, h2] at h1
  have hpow : (256 : Nat) ^ 8 = 2 ^ 64 := by norm_num
  rw [hpow] at h1
  have h64 : (2 : Nat) ^ 64 = 18446744073709551616 := by norm_num
  rw [h64] at h1 ha hb
  omega

theorem encode_shape (k : List Nat) (v : Nat) :
    Key.encode { raw_key := k, version := v } = leBytes 8 k.length ++ (k ++ leBytes 8 v) := by
  simp [Key.encode]

theorem decode_key_encode (k : List Nat) (v : Nat) (hk : k.length < 2 ^ 64) :
    decode_key (Key.encode { raw_key := k, version := v })
      = some { raw_key := k, version := v % 2 ^ 64 } := by
  have hA : (leBytes 8 k.length).length = 8 := leBytes_length 8 _
  have hB : (leBytes 8 v).length = 8 := leBytes_length 8 _
  have hpow : (256 : Nat) ^ 8 = 2 ^ 64 := by norm_num
  rw [encode_shape]
  simp only [decode_key]
  rw [List.take_left' hA, List.drop_left' hA, desBytes_leBytes, hpow, Nat.mod_eq_of_lt hk]
  rw [List.take_left, List.drop_left, take_all_of_length_eq _ _ hB]
  rw [desBytes_leBytes, hpow]
  simp [List.length_append, hA, hB]

theorem encode_group (k k1 : List Nat) (a b w : Nat) (hk : k.length < 2 ^ 64)
    (hk1 : k1.length < 2 ^ 64)
    (h1 : lexLt (Key.encode { raw_key := k, version := a })
            (Key.encode { raw_key := k1, version := w }) = true)
    (h2 : lexLt (Key.encode { raw_key := k1, version := w })
            (Key.encode { raw_key := k, version := b }) = true) : k1 = k := by
  have hA : (leBytes 8 k.length).length = 8 := leBytes_length 8 _
  have hA1 : (leBytes 8 k1.length).length = 8 := leBytes_length 8 _
  rw [encode_shape, encode_shape] at h1 h2
  have h1x : lexLt ((leBytes 8 k.length ++ k) ++ leBytes 8 a)
      (leBytes 8 k1.length ++ (k1 ++ leBytes 8 w)) = true := by
    rw [List.append_assoc]
    exact h1
  have h2x : lexLt (leBytes 8 k1.length ++ (k1 ++ leBytes 8 w))
      ((leBytes 8 k.length ++ k) ++ leBytes 8 b) = true := by
    rw [List.append_assoc]
    exact h2
  obtain ⟨y1, hy⟩ := lexLt_between_append (leBytes 8 k.length ++ k) (leBytes 8 a)
    (leBytes 8 b) _ h1x h2x
  have hy2 : leBytes 8 k1.length ++ (k1 ++ leBytes 8 w)
      = leBytes 8 k.length ++ (k ++ y1) := by
    rw [hy, List.append_assoc]
  have htake := congrArg (fun l => List.take 8 l) hy2
  simp only [List.take_left' hA1, List.take_left' hA] at htake
  have hlen : k1.length = k.length := leBytes_inj _ _ hk1 hk htake
  have hdrop := congrArg (fun l => List.drop 8 l) hy2
  simp only [List.drop_left' hA1, List.drop_left' hA] at hdrop
  have htk := congrArg (fun l => List.take k.length l) hdrop
  simp only [List.take_left] at htk
  rw [show (k1 ++ leBytes 8 w).take k.length = k1 from by rw [← hlen]; exact List.take_left k1 _] at htk
  exact htk

theorem encode_version_lt (k : List Nat) (a b : Nat) (hab : a < b) (hb : b < 256) :
    lexLt (Key.encode { raw_key := k, version := a })
      (Key.encode { raw_key := k, version := b }) = true := by
  have hsmall : ∀ c : Nat, c < 256 → leBytes 8 c = c :: leBytes 7 0 := by
    intro c hc
    rw [show (8 : Nat) = 7 + 1 from rfl, leBytes, Nat.mod_eq_of_lt hc, Nat.div_eq_of_lt hc]
  rw [encode_shape, encode_shape, ← List.append_assoc, ← List.append_assoc]
  rw [lexLt_append_left (leBytes 8 k.length ++ k) (leBytes 8 a) (leBytes 8 b)]
  rw [hsmall a (lt_trans hab hb), hsmall b hb]
  simp [lexLt, hab]

/-- C3 counterexample: with raw key `[97]`, the encoded key of version 256 is
byte-wise BELOW the encoded key of version 255 (the version is serialized
little-endian), so in a backing holding both, iteration in descending
encoded-key order visits the version-255 entry first although 256 is the
highest version of that raw key. -/
theorem encode_desc_order_counterexample :
    lexLt (Key.encode { raw_key := [97], version := 256 })
      (Key.encode { raw_key := [97], version := 255 }) = true ∧
    (([(Key.encode { raw_key := [97], version := 256 }, some [1]),
       (Key.encode { raw_key := [97], version := 255 }, some [2])] : KVEngine).reverse.find?
      (fun e => ((decode_key e.1).map (fun kk => kk.raw_key)) == some [97]))
      = some (Key.encode { raw_key := [97], version := 255 }, some [2]) := by
  decide

/-- C3 amended: the bincode encoding of `(raw_key, version)` is deterministic
and round-trippable (raw-key length and version below `2^64`), and the
byte-wise order of encoded keys groups all entries of a fixed raw key
together (no entry of another raw key lies strictly between two entries of
the same raw key); but descending iteration visits the highest version first
only while the versions stay below 256, where byte-wise order of the
little-endian version field agrees with numeric order. -/
theorem encode_key_amended (k k1 : List Nat) (v u1 u2 : Nat)
    (hk : k.length < 2 ^ 64) (hk1 : k1.length < 2 ^ 64) (hv : v < 2 ^ 64)
    (hlt : u1 < u2) (hu : u2 < 256) :
    decode_key (Key.encode { raw_key := k, version := v })
        = some { raw_key := k, version := v } ∧
    (∀ a b w : Nat,
      lexLt (Key.encode { raw_key := k, version := a })
          (Key.encode { raw_key := k1, version := w }) = true →
      lexLt (Key.encode { raw_key := k1, version := w })
          (Key.encode { raw_key := k, version := b }) = true →
      k1 = k) ∧
    lexLt (Key.encode { raw_key := k, version := u1 })
        (Key.encode { raw_key := k, version := u2 }) = true := by
  refine ⟨?_, ?_, encode_version_lt k u1 u2 hlt hu⟩
  · rw [decode_key_encode k v hk, Nat.mod_eq_of_lt hv]
  · intro a b w h1 h2
    exact encode_group k k1 a b w hk hk1 h1 h2

/-- Witness for the amended C3 at concrete keys and versions. -/
theorem encode_key_amended_witness :
    (([5] : List Nat).length < 2 ^ 64) ∧ (([5, 6] : List Nat).length < 2 ^ 64) ∧
    ((3 : Nat) < 2 ^ 64) ∧ ((1 : Nat) < 2) ∧ ((2 : Nat) < 256) ∧
    (decode_key (Key.encode { raw_key := [5], version := 3 })
        = some { raw_key := [5], version := 3 } ∧
    (∀ a b w : Nat,
      lexLt (Key.encode { raw_key := [5], version := a })
          (Key.encode { raw_key := [5, 6], version := w }) = true →
      lexLt (Key.encode { raw_key := [5, 6], version := w })
          (Key.encode { raw_key := [5], version := b }) = true →
      ([5, 6] : List Nat) = [5]) ∧
    lexLt (Key.encode { raw_key := [5], version := 1 })
        (Key.encode { raw_key := [5], version := 2 }) = true) :=
  ⟨by decide, by decide, by decide, by decide, by decide,
    encode_key_amended [5] [5, 6] 3 1 2 (by decide) (by decide) (by decide)
      (by decide) (by decide)⟩

/-! ## C10: the rollback assertion -/

theorem encode_inj_raw (j k : List Nat) (v : Nat) (hj : j.length < 2 ^ 64)
    (hk : k.length < 2 ^ 64)
    (h : Key.encode { raw_key := j, version := v } = Key.encode { raw_key := k, version := v }) :
    j = k := by
  have h1 := decode_key_encode j v hj
  have h2 := decode_key_encode k v hk
  rw [h, h2] at h1
  simp only [Option.some.injEq, Key.mk.injEq] at h1
  exact h1.1.symm

theorem removeAll_absent (v : Nat) (ws : List (List Nat)) (kv : KVEngine) (j : List Nat)
    (hj : j ∈ ws)
    (habs : mapContains kv (Key.encode { raw_key := j, version := v }) = false) :
    (removeAll v ws kv).isOk = false := by
  induction ws generalizing kv with
  | nil => exact absurd hj (List.not_mem_nil j)
  | cons k ks ih =>
    simp only [removeAll]
    by_cases hk : mapContains kv (Key.encode { raw_key := k, version := v }) = true
    · rw [if_pos hk]
      rcases List.mem_cons.mp hj with hjk | hjm
      · subst hjk
        simp [hk] at habs
      · refine ih _ hjm ?_
        by_cases he : Key.encode { raw_key := j, version := v }
            = Key.encode { raw_key := k, version := v }
        · rw [mapContains_eq_lookup_isSome, he, mapLookup_erase_self]
          rfl
        · rw [mapContains_eq_lookup_isSome, mapLookup_erase_ne _ _ _ he,
            ← mapContains_eq_lookup_isSome]
          exact habs
    · rw [if_neg hk]
      rfl

theorem removeAll_ok_nodup (v : Nat) (ws : List (List Nat)) (kv : KVEngine)
    (h : (removeAll v ws kv).isOk = true) : ws.Nodup := by
  induction ws generalizing kv with
  | nil => exact List.nodup_nil
  | cons k ks ih =>
    simp only [removeAll] at h
    by_cases hk : mapContains kv (Key.encode { raw_key := k, version := v }) = true
    · rw [if_pos hk] at h
      refine List.nodup_cons.mpr ⟨?_, ih _ h⟩
      intro hmem
      have habs : mapContains (mapErase kv (Key.encode { raw_key := k, version := v }))
          (Key.encode { raw_key := k, version := v }) = false := by
        rw [mapContains_eq_lookup_isSome, mapLookup_erase_self]
        rfl
      rw [removeAll_absent v ks _ k hmem habs] at h
      cases h
    · rw [if_neg hk] at h
      cases h

theorem removeAll_nodup_ok (v : Nat) (ws : List (List Nat)) (kv : KVEngine)
    (hnd : ws.Nodup) (hlen : ∀ k ∈ ws, k.length < 2 ^ 64)
    (hpres : ∀ k ∈ ws, mapContains kv (Key.encode { raw_key := k, version := v }) = true) :
    (removeAll v ws kv).isOk = true := by
  induction ws generalizing kv with
  | nil => rfl
  | cons k ks ih =>
    simp only [removeAll]
    rw [if_pos (hpres k (List.mem_cons_self k ks))]
    refine ih _ (List.nodup_cons.mp hnd).2 (fun j hj => hlen j (List.mem_cons_of_mem k hj)) ?_
    intro j hj
    have hne : j ≠ k := fun he => (List.nodup_cons.mp hnd).1 (he ▸ hj)
    have henc : Key.encode { raw_key := j, version := v }
        ≠ Key.encode { raw_key := k, version := v } := fun he =>
      hne (encode_inj_raw j k v (hlen j (List.mem_cons_of_mem k hj))
        (hlen k (List.mem_cons_self k ks)) he)
    rw [mapContains_eq_lookup_isSome, mapLookup_erase_ne _ _ _ henc,
      ← mapContains_eq_lookup_isSome]
    exact hpres j (List.mem_cons_of_mem k hj)

/-- C10: the write path records one write-set entry per `set`/`delete` call
while the engine keys records by `(raw_key, version)`, so a transaction that
writes the same raw key twice has a duplicated write-set but a single engine
record (shown by the concrete run below), and the `assert!(res.is_some())`
in rollback fails exactly when the write-set contains a duplicate key: with
every written entry present in the engine, rollback succeeds iff the
write-set is duplicate-free. -/
theorem rollback_assert_iff_nodup (t : Transaction) (reg : Registry) (kv : KVEngine)
    (ws : List (List Nat)) (hws : regLookup reg t.version = some ws)
    (hlen : ∀ k ∈ ws, k.length < 2 ^ 64)
    (hpres : ∀ k ∈ ws,
      mapContains kv (Key.encode { raw_key := k, version := t.version }) = true) :
    ((txnRollback t reg kv).isOk = true ↔ ws.Nodup) ∧
    (txnSet { version := 1, active_xid := [] } [(1, [])] [] [107] [49]
        = .ok ([(1, [[107]])], [(Key.encode { raw_key := [107], version := 1 }, some [49])]) ∧
      txnSet { version := 1, active_xid := [] } [(1, [[107]])]
          [(Key.encode { raw_key := [107], version := 1 }, some [49])] [107] [50]
        = .ok ([(1, [[107], [107]])],
            [(Key.encode { raw_key := [107], version := 1 }, some [50])]) ∧
      txnRollback { version := 1, active_xid := [] } [(1, [[107], [107]])]
          [(Key.encode { raw_key := [107], version := 1 }, some [50])]
        = .panicked "assertion failed: res.is_some()") := by
  refine ⟨?_, rfl, rfl, rfl⟩
  have heq : (txnRollback t reg kv).isOk = (removeAll t.version ws kv).isOk := by
    simp only [txnRollback, hws]
    cases hrm : removeAll t.version ws kv <;> simp [Outcome.isOk]
  rw [heq]
  constructor
  · exact removeAll_ok_nodup t.version ws kv
  · intro hnd
    exact removeAll_nodup_ok t.version ws kv hnd hlen hpres

/-- Witness for C10 at a concrete transaction, registry, engine and write
set. -/
theorem rollback_assert_iff_nodup_witness :
    (regLookup [(9, [[1], [2]])] (9 : Nat) = some [[1], [2]]) ∧
    (∀ k ∈ ([[1], [2]] : List (List Nat)), k.length < 2 ^ 64) ∧
    (∀ k ∈ ([[1], [2]] : List (List Nat)),
      mapContains [(Key.encode { raw_key := [1], version := 9 }, some [7]),
        (Key.encode { raw_key := [2], version := 9 }, none)]
        (Key.encode { raw_key := k, version := 9 }) = true) ∧
    (((txnRollback { version := 9, active_xid := [] } [(9, [[1], [2]])]
        [(Key.encode { raw_key := [1], version := 9 }, some [7]),
         (Key.encode { raw_key := [2], version := 9 }, none)]).isOk = true
      ↔ ([[1], [2]] : List (List Nat)).Nodup) ∧
    (txnSet { version := 1, active_xid := [] } [(1, [])] [] [107] [49]
        = .ok ([(1, [[107]])], [(Key.encode { raw_key := [107], version := 1 }, some [49])]) ∧
      txnSet { version := 1, active_xid := [] } [(1, [[107]])]
          [(Key.encode { raw_key := [107], version := 1 }, some [49])] [107] [50]
        = .ok ([(1, [[107], [107]])],
            [(Key.encode { raw_key := [107], version := 1 }, some [50])]) ∧
      txnRollback { version := 1, active_xid := [] } [(1, [[107], [107]])]
          [(Key.encode { raw_key := [107], version := 1 }, some [50])]
        = .panicked "assertion failed: res.is_some()")) :=
  ⟨by decide, by decide, by decide,
    rollback_assert_iff_nodup { version := 9, active_xid := [] } [(9, [[1], [2]])]
      [(Key.encode { raw_key := [1], version := 9 }, some [7]),
       (Key.encode { raw_key := [2], version := 9 }, none)]
      [[1], [2]] (by decide) (by decide) (by decide)⟩

/-! ## C5: set/get round-trip -/

theorem be32_length (n : Nat) : (be32 n).length = 4 := rfl

theorem read_value_exact (A B : List Nat) (pos len : Nat) (hpos : pos = A.length)
    (hlen : len = B.length) : read_value (A ++ B) pos len = .ok B := by
  subst hpos hlen
  rw [read_value, if_pos (by simp)]
  rw [List.drop_left, List.take_length]

/-- C5: for every store state and every key and value (any length, including
length 0, the lengths fitting the record header), `set` then `get` of the
same key returns exactly the value that was set. -/
theorem bc_set_get_roundtrip (st : MiniBitcask) (key value : List Nat)
    (h : 8 + key.length + value.length < 4294967296) :
    bcGet (bcSet st key value) key = .ok (some value) := by
  have hkl : key.length % 4294967296 = key.length := Nat.mod_eq_of_lt (by omega)
  have hvl : value.length % 4294967296 = value.length := Nat.mod_eq_of_lt (by omega)
  have hlen : (8 + key.length + value.length) % 4294967296 = 8 + key.length + value.length :=
    Nat.mod_eq_of_lt h
  simp only [bcSet, bcGet, write_entry, hkl, hvl, hlen, Option.getD]
  rw [mapLookup_insert_self]
  have hpos : st.file.length + (8 + key.length + value.length) - value.length
      = (st.file ++ be32 key.length ++ be32 (vlField (some value)) ++ key).length := by
    simp [List.length_append, be32_length]
    omega
  dsimp only
  rw [read_value_exact _ _ _ _ hpos rfl]
  rfl

/-- Witness for C5: the empty key and the empty value on a fresh store. -/
theorem bc_set_get_roundtrip_witness :
    (8 + ([] : List Nat).length + ([] : List Nat).length < 4294967296) ∧
    bcGet (bcSet initStore [] []) [] = .ok (some []) :=
  ⟨by decide, bc_set_get_roundtrip initStore [] [] (by decide)⟩

/-! ## C7: the record format written by write_entry -/

/-- The value length as a `Nat` (0 for a tombstone). -/
def natVl : Option (List Nat) → Nat
  | some v => v.length
  | none => 0

/-- The `VL` field as the spec states it: the value length as a signed
32-bit quantity, `-1` when the value is absent. -/
def vlInt : Option (List Nat) → Int
  | some v => (v.length : Int)
  | none => -1

/-- Big-endian bytes of an `i32` (two's complement bit pattern). -/
def i32be (z : Int) : List Nat :=
  be32 (z % 4294967296).toNat

/-- C7: `write_entry` appends exactly `KL (u32 be) | VL (i32 be, -1 when the
value is absent, with no value bytes following) | key | value bytes` at the
end of the log and returns the old end offset together with the total record
length `8 + KL + max(VL, 0)`. -/
theorem write_entry_format (file key : List Nat) (value : Option (List Nat))
    (h : 8 + key.length + natVl value < 4294967296) :
    (write_entry file key value).1
        = file ++ be32 key.length ++ i32be (vlInt value) ++ key ++ value.getD [] ∧
    (write_entry file key value).2.1 = file.length ∧
    ((write_entry file key value).2.2 : Int) = 8 + key.length + max (vlInt value) 0 := by
  cases value with
  | none =>
    simp only [natVl] at h
    have hkl : key.length % 4294967296 = key.length := Nat.mod_eq_of_lt (by omega)
    have hneg : i32be (vlInt none) = be32 4294967295 := by
      rw [vlInt, i32be, show (((-1 : Int) % 4294967296).toNat) = 4294967295 from by decide]
    refine ⟨?_, rfl, ?_⟩
    · simp [write_entry, hkl, hneg, vlField]
    · simp only [write_entry, hkl, vlInt]
      rw [Nat.mod_eq_of_lt (by omega)]
      have hmax : max (-1 : Int) 0 = 0 := by decide
      rw [hmax]
      push_cast
      ring
  | some v =>
    simp only [natVl] at h
    have hkl : key.length % 4294967296 = key.length := Nat.mod_eq_of_lt (by omega)
    have hvl : v.length % 4294967296 = v.length := Nat.mod_eq_of_lt (by omega)
    have htn : ((v.length : Int) % 4294967296).toNat = v.length := by omega
    have hpos : i32be (vlInt (some v)) = be32 v.length := by
      rw [vlInt, i32be, htn]
    refine ⟨?_, rfl, ?_⟩
    · simp [write_entry, hkl, hvl, hpos, vlField]
    · simp only [write_entry, hkl, hvl, vlInt]
      rw [Nat.mod_eq_of_lt (by omega)]
      have hmax : max ((v.length : Int)) 0 = (v.length : Int) :=
        max_eq_left (by positivity)
      rw [hmax]
      push_cast
      ring

/-- Witness for C7 at a concrete file, key and both value shapes is not
needed twice: one concrete set record. -/
theorem write_entry_format_witness :
    (8 + ([107] : List Nat).length + natVl (some [1, 2]) < 4294967296) ∧
    ((write_entry [9] [107] (some [1, 2])).1
        = [9] ++ be32 ([107] : List Nat).length ++ i32be (vlInt (some [1, 2]))
          ++ [107] ++ (some [1, 2]).getD [] ∧
    (write_entry [9] [107] (some [1, 2])).2.1 = ([9] : List Nat).length ∧
    ((write_entry [9] [107] (some [1, 2])).2.2 : Int)
        = 8 + ([107] : List Nat).length + max (vlInt (some [1, 2])) 0) :=
  ⟨by decide, write_entry_format [9] [107] (some [1, 2]) (by decide)⟩

/-! ## C6: scan_prefix -/

theorem bumpLast_eq_nextPfx (p : List Nat) (h : p ≠ []) : bumpLast p = nextPfx p := by
  rcases p.eq_nil_or_concat with h0 | ⟨L, b, hc⟩
  · exact absurd h0 h
  · rw [List.concat_eq_append] at hc
    subst hc
    simp [bumpLast, nextPfx, List.reverse_append]

theorem prefixScan_empty (kd : KeyDir) : prefixScan kd [] = .ok [] := by
  rw [prefixScan, show bumpLast [] = [] from rfl, scanEntries, if_neg (by decide)]
  exact congrArg Outcome.ok
    (List.filter_eq_nil_iff.mpr (fun e _ => by simp [lowerOk, upperOk, lexLt_nil]))

/-- C6 counterexample: on a store holding the single key `[97]`,
`scan_prefix` with the empty prefix yields nothing, while a full scan yields
the key — the empty prefix does NOT degenerate to a full scan (the bounds
are `[Included [], Excluded [])`, an empty half-open range). -/
theorem prefix_scan_empty_not_full_scan :
    prefixScan [([97], 0, 0)] [] = .ok [] ∧
    scanEntries [([97], 0, 0)] .unb .unb = .ok [([97], 0, 0)] ∧
    prefixScan [([97], 0, 0)] [] ≠ scanEntries [([97], 0, 0)] .unb .unb := by
  refine ⟨prefixScan_empty _, rfl, ?_⟩
  rw [prefixScan_empty _]
  decide

/-- C6 amended: for a NON-EMPTY prefix, `scan_prefix(p)` equals a scan of
the half-open range `[p, next(p))` with `next` incrementing the final byte
by one modulo 256; for the empty prefix the computed range is
`[Included [], Excluded [])`, which is empty, so the scan yields no keys
(not a full scan). -/
theorem prefix_scan_amended (kd : KeyDir) (p : List Nat) :
    (p ≠ [] → prefixScan kd p = scanEntries kd (.incl p) (.excl (nextPfx p))) ∧
    (p = [] → prefixScan kd p = .ok []) := by
  constructor
  · intro h
    rw [prefixScan, bumpLast_eq_nextPfx p h]
  · intro h
    subst h
    exact prefixScan_empty kd

/-- Witness for the amended C6 at a non-empty prefix whose final byte is 255
(the wrap-around case). -/
theorem prefix_scan_amended_witness :
    (([99, 255] : List Nat) ≠ []) ∧
    prefixScan [([99, 255], 0, 0)] [99, 255]
      = scanEntries [([99, 255], 0, 0)] (.incl [99, 255]) (.excl (nextPfx [99, 255])) :=
  ⟨by decide, (prefix_scan_amended [([99, 255], 0, 0)] [99, 255]).1 (by decide)⟩

/-! ## C8: scan iteration order -/

theorem runIter_replicate_true {α : Type} (n : Nat) (l : List α) :
    runIter (List.replicate n true) l = (l.take n, l.drop n) := by
  induction n generalizing l with
  | zero => simp [runIter]
  | succ n ih =>
    cases l with
    | nil => simp [List.replicate_succ, runIter, frontTake]
    | cons x xs => simp [List.replicate_succ, runIter, frontTake, ih]

theorem backTake_concat {α : Type} (L : List α) (b : α) : backTake (L ++ [b]) = some (b, L) := by
  simp [backTake, List.reverse_append]

theorem runIter_replicate_false {α : Type} (l : List α) :
    runIter (List.replicate l.length false) l = (l.reverse, []) := by
  induction l using List.reverseRecOn with
  | nil => simp [runIter]
  | append_singleton L b ih =>
    rw [show (L ++ [b]).length = L.length + 1 from by simp, List.replicate_succ, runIter]
    simp [backTake_concat, ih, List.reverse_append]

theorem runIter_perm {α : Type} (ds : List Bool) (l : List α) (h : l.length ≤ ds.length) :
    (runIter ds l).1.Perm l ∧ (runIter ds l).2 = [] := by
  induction ds generalizing l with
  | nil =>
    simp only [List.length_nil, Nat.le_zero] at h
    have hnil : l = [] := List.eq_nil_of_length_eq_zero h
    subst hnil
    simp [runIter]
  | cons d ds ih =>
    cases d with
    | true =>
      cases l with
      | nil => simp [runIter, frontTake]
      | cons x xs =>
        simp only [runIter, frontTake, if_true]
        obtain ⟨h1, h2⟩ := ih xs (by simp at h ⊢; omega)
        exact ⟨h1.cons x, h2⟩
    | false =>
      rcases l.eq_nil_or_concat with hnil | ⟨L, b, hc⟩
      · subst hnil
        simp [runIter, backTake]
      · rw [List.concat_eq_append] at hc
        subst hc
        simp only [runIter, backTake_concat, if_false]
        obtain ⟨h1, h2⟩ := ih L (by simp at h ⊢; omega)
        exact ⟨(h1.cons b).trans (List.perm_append_singleton b L).symm, h2⟩

/-- C8: over a sorted KeyDir, a successful `scan(range)` yields a range list
whose keys are strictly ascending; full forward iteration yields it in
order, full backward iteration yields its reverse (strictly descending);
keys are pairwise distinct; and any interleaving of `next` and `next_back`
long enough to exhaust the iterator yields exactly the range's entries, each
exactly once (a permutation, with an empty remainder). -/
theorem scan_iteration_props (kd : KeyDir) (lo hi : ScanBound) (l : KeyDir)
    (hs : kd.Pairwise (fun a b => lexLt a.1 b.1 = true))
    (hok : scanEntries kd lo hi = .ok l) :
    l.Pairwise (fun a b => lexLt a.1 b.1 = true) ∧
    l.reverse.Pairwise (fun a b => lexLt b.1 a.1 = true) ∧
    runIter (List.replicate l.length true) l = (l, []) ∧
    runIter (List.replicate l.length false) l = (l.reverse, []) ∧
    (l.map (fun e => e.1)).Nodup ∧
    (∀ ds : List Bool, l.length ≤ ds.length →
      (runIter ds l).1.Perm l ∧ (runIter ds l).2 = []) := by
  have hl : l = rangeEntries kd lo hi := by
    rw [scanEntries] at hok
    by_cases hbad : invalidRange lo hi = true
    · rw [if_pos hbad] at hok
      cases hok
    · rw [if_neg hbad] at hok
      cases hok
      rfl
  have hsl : l.Pairwise (fun a b => lexLt a.1 b.1 = true) := by
    rw [hl]
    exact hs.sublist (List.filter_sublist kd)
  refine ⟨hsl, ?_, ?_, runIter_replicate_false l, ?_, fun ds hds => runIter_perm ds l hds⟩
  · rw [List.pairwise_reverse]
    exact hsl
  · rw [runIter_replicate_true l.length l, List.take_length, List.drop_length]
  · rw [List.Nodup, List.pairwise_map]
    refine hsl.imp ?_
    intro a b hab heq
    rw [heq, lexLt_irrefl] at hab
    cases hab

/-- Witness for C8 at a concrete sorted KeyDir and range. -/
theorem scan_iteration_props_witness :
    (([([1], 0, 0), ([2], 0, 0)] : KeyDir).Pairwise (fun a b => lexLt a.1 b.1 = true)) ∧
    (scanEntries [([1], 0, 0), ([2], 0, 0)] (.incl [1]) .unb
        = .ok [([1], 0, 0), ([2], 0, 0)]) ∧
    (([([1], 0, 0), ([2], 0, 0)] : KeyDir).Pairwise (fun a b => lexLt a.1 b.1 = true) ∧
     ([([1], 0, 0), ([2], 0, 0)] : KeyDir).reverse.Pairwise (fun a b => lexLt b.1 a.1 = true) ∧
     runIter (List.replicate ([([1], 0, 0), ([2], 0, 0)] : KeyDir).length true)
         [([1], 0, 0), ([2], 0, 0)] = ([([1], 0, 0), ([2], 0, 0)], []) ∧
     runIter (List.replicate ([([1], 0, 0), ([2], 0, 0)] : KeyDir).length false)
         [([1], 0, 0), ([2], 0, 0)] = (([([1], 0, 0), ([2], 0, 0)] : KeyDir).reverse, []) ∧
     (([([1], 0, 0), ([2], 0, 0)] : KeyDir).map (fun e => e.1)).Nodup ∧
     (∀ ds : List Bool, ([([1], 0, 0), ([2], 0, 0)] : KeyDir).length ≤ ds.length →
       (runIter ds [([1], 0, 0), ([2], 0, 0)]).1.Perm [([1], 0, 0), ([2], 0, 0)] ∧
       (runIter ds [([1], 0, 0), ([2], 0, 0)]).2 = [])) :=
  ⟨by decide, rfl,
    scan_iteration_props [([1], 0, 0), ([2], 0, 0)] (.incl [1]) .unb
      [([1], 0, 0), ([2], 0, 0)] (by decide) rfl⟩

/-! ## C4: load_index rebuilds the last-writer-wins index -/

theorem beVal_be32 (n : Nat) (h : n < 4294967296) : beVal (be32 n) = n := by
  simp only [be32, beVal, List.foldl_cons, List.foldl_nil]
  omega

theorem loadIndexLoop_nil (file : List Nat) (kd : KeyDir) :
    loadIndexLoop file file.length kd = .ok kd := by
  rw [loadIndexLoop, dif_neg (by omega)]

theorem loadIndexLoop_record (file tail : List Nat) (kd : KeyDir) (op : Op) (hwf : WfOp op) :
    loadIndexLoop (file ++ (recordBytes op ++ tail)) file.length kd
      = loadIndexLoop (file ++ (recordBytes op ++ tail))
          (file.length + (recordBytes op).length) (applyRec kd op file.length) := by
  cases op with
  | set k v =>
    obtain ⟨h1, h2⟩ := hwf
    have hkl : k.length % 4294967296 = k.length := Nat.mod_eq_of_lt (by omega)
    have hvl : v.length % 4294967296 = v.length := Nat.mod_eq_of_lt (by omega)
    have hX : recordBytes (Op.set k v) ++ tail
        = be32 k.length ++ (be32 v.length ++ (k ++ (v ++ tail))) := by
      simp [recordBytes, hkl, hvl, List.append_assoc]
    have hXtake4 : (recordBytes (Op.set k v) ++ tail).take 4 = be32 k.length := by
      rw [hX, List.take_left' (be32_length _)]
    have hXdrop4 : (recordBytes (Op.set k v) ++ tail).drop 4
        = be32 v.length ++ (k ++ (v ++ tail)) := by
      rw [hX, List.drop_left' (be32_length _)]
    have hXd4take : ((recordBytes (Op.set k v) ++ tail).drop 4).take 4 = be32 v.length := by
      rw [hXdrop4, List.take_left' (be32_length _)]
    have hXdrop8 : (recordBytes (Op.set k v) ++ tail).drop 8 = k ++ (v ++ tail) := by
      rw [hX, show be32 k.length ++ (be32 v.length ++ (k ++ (v ++ tail)))
          = (be32 k.length ++ be32 v.length) ++ (k ++ (v ++ tail)) from by
        rw [List.append_assoc]]
      exact List.drop_left' (by simp [be32_length])
    have hXd8take : ((recordBytes (Op.set k v) ++ tail).drop 8).take k.length = k := by
      rw [hXdrop8, List.take_left]
    have hXlen : (recordBytes (Op.set k v) ++ tail).length
        = 8 + k.length + v.length + tail.length := by
      rw [hX]
      simp [be32_length]
      omega
    have hRlen : (recordBytes (Op.set k v)).length = 8 + k.length + v.length := by
      simp [recordBytes, be32_length, hkl, hvl]
      omega
    rw [loadIndexLoop]
    rw [dif_pos (by simp only [List.length_append, hXlen]; omega)]
    dsimp only
    rw [List.drop_left, hXtake4, hXd4take]
    rw [beVal_be32 k.length (by omega), beVal_be32 v.length (by omega)]
    rw [hXd8take]
    rw [if_neg (by rw [hXlen]; omega), if_neg (by rw [hXlen]; omega),
      if_neg (by rw [hXlen]; omega), if_pos h2]
    rw [hRlen, show file.length + (8 + k.length + v.length)
        = file.length + 8 + k.length + v.length from by omega]
    rfl
  | del k =>
    have h1 : 8 + k.length < 4294967296 := hwf
    have hkl : k.length % 4294967296 = k.length := Nat.mod_eq_of_lt (by omega)
    have hX : recordBytes (Op.del k) ++ tail
        = be32 k.length ++ (be32 4294967295 ++ (k ++ tail)) := by
      simp [recordBytes, hkl, List.append_assoc]
    have hXtake4 : (recordBytes (Op.del k) ++ tail).take 4 = be32 k.length := by
      rw [hX, List.take_left' (be32_length _)]
    have hXdrop4 : (recordBytes (Op.del k) ++ tail).drop 4
        = be32 4294967295 ++ (k ++ tail) := by
      rw [hX, List.drop_left' (be32_length _)]
    have hXd4take : ((recordBytes (Op.del k) ++ tail).drop 4).take 4 = be32 4294967295 := by
      rw [hXdrop4, List.take_left' (be32_length _)]
    have hXdrop8 : (recordBytes (Op.del k) ++ tail).drop 8 = k ++ tail := by
      rw [hX, show be32 k.length ++ (be32 4294967295 ++ (k ++ tail))
          = (be32 k.length ++ be32 4294967295) ++ (k ++ tail) from by
        rw [List.append_assoc]]
      exact List.drop_left' (by simp [be32_length])
    have hXd8take : ((recordBytes (Op.del k) ++ tail).drop 8).take k.length = k := by
      rw [hXdrop8, List.take_left]
    have hXlen : (recordBytes (Op.del k) ++ tail).length = 8 + k.length + tail.length := by
      rw [hX]
      simp [be32_length]
      omega
    have hRlen : (recordBytes (Op.del k)).length = 8 + k.length := by
      simp [recordBytes, be32_length, hkl]
      omega
    rw [loadIndexLoop]
    rw [dif_pos (by simp only [List.length_append, hXlen]; omega)]
    dsimp only
    rw [List.drop_left, hXtake4, hXd4take]
    rw [beVal_be32 k.length (by omega), beVal_be32 4294967295 (by omega)]
    rw [hXd8take]
    rw [if_neg (by rw [hXlen]; omega), if_neg (by rw [hXlen]; omega),
      if_neg (by rw [hXlen]; omega), if_neg (by omega)]
    rw [hRlen, show file.length + (8 + k.length) = file.length + 8 + k.length from by omega]
    rfl

theorem loadIndexLoop_ops (ops : List Op) (file : List Nat) (kd : KeyDir)
    (hwf : ∀ op ∈ ops, WfOp op) :
    loadIndexLoop (file ++ encodeOps ops) file.length kd
      = .ok (applyRecs kd file.length ops) := by
  induction ops generalizing file kd with
  | nil =>
    rw [show encodeOps [] = [] from rfl, List.append_nil]
    exact loadIndexLoop_nil file kd
  | cons op rest ih =>
    rw [show encodeOps (op :: rest) = recordBytes op ++ encodeOps rest from rfl]
    rw [loadIndexLoop_record file (encodeOps rest) kd op (hwf op (List.mem_cons_self op rest))]
    rw [show file ++ (recordBytes op ++ encodeOps rest)
        = (file ++ recordBytes op) ++ encodeOps rest from (List.append_assoc _ _ _).symm]
    rw [show file.length + (recordBytes op).length = (file ++ recordBytes op).length from by
      simp]
    rw [ih (file ++ recordBytes op) (applyRec kd op file.length)
      (fun o ho => hwf o (List.mem_cons_of_mem op ho))]
    rw [show (file ++ recordBytes op).length = file.length + (recordBytes op).length from by
      simp]
    rfl

theorem bcSet_encode (file : List Nat) (kd : KeyDir) (k v : List Nat)
    (hwf : WfOp (Op.set k v)) :
    bcSet { file := file, keydir := kd } k v
      = { file := file ++ recordBytes (Op.set k v),
          keydir := applyRec kd (Op.set k v) file.length } := by
  obtain ⟨h1, h2⟩ := hwf
  have hkl : k.length % 4294967296 = k.length := Nat.mod_eq_of_lt (by omega)
  have hvl : v.length % 4294967296 = v.length := Nat.mod_eq_of_lt (by omega)
  have hlen : (8 + k.length + v.length) % 4294967296 = 8 + k.length + v.length :=
    Nat.mod_eq_of_lt h1
  simp only [bcSet, write_entry, vlField, recordBytes, applyRec, hkl, hvl, hlen, Option.getD]
  rw [MiniBitcask.mk.injEq]
  exact ⟨by simp [List.append_assoc],
    by rw [show file.length + (8 + k.length + v.length) - v.length
        = file.length + 8 + k.length from by omega]⟩

theorem bcDelete_encode (file : List Nat) (kd : KeyDir) (k : List Nat)
    (hwf : WfOp (Op.del k)) :
    bcDelete { file := file, keydir := kd } k
      = { file := file ++ recordBytes (Op.del k),
          keydir := applyRec kd (Op.del k) file.length } := by
  have h1 : 8 + k.length < 4294967296 := hwf
  have hkl : k.length % 4294967296 = k.length := Nat.mod_eq_of_lt (by omega)
  simp [bcDelete, write_entry, vlField, recordBytes, applyRec, hkl, Option.getD]

theorem applyOps_encode (ops : List Op) (file : List Nat) (kd : KeyDir)
    (hwf : ∀ op ∈ ops, WfOp op) :
    applyOps { file := file, keydir := kd } ops
      = { file := file ++ encodeOps ops, keydir := applyRecs kd file.length ops } := by
  induction ops generalizing file kd with
  | nil => simp [applyOps, encodeOps, applyRecs]
  | cons op rest ih =>
    rw [show applyOps { file := file, keydir := kd } (op :: rest)
        = applyOps (applyOp { file := file, keydir := kd } op) rest from rfl]
    have hop := hwf op (List.mem_cons_self op rest)
    have hstep : applyOp { file := file, keydir := kd } op
        = { file := file ++ recordBytes op, keydir := applyRec kd op file.length } := by
      cases op with
      | set k v => exact bcSet_encode file kd k v hop
      | del k => exact bcDelete_encode file kd k hop
    rw [hstep, ih (file ++ recordBytes op) (applyRec kd op file.length)
      (fun o ho => hwf o (List.mem_cons_of_mem op ho))]
    rw [show (file ++ recordBytes op).length = file.length + (recordBytes op).length from by
      simp]
    rw [List.append_assoc]
    rfl

theorem lwwOfLast_some_congr (k : List Nat) (d1 d2 : Option (Nat × Nat)) (y : Op × Nat) :
    lwwOfLast k d1 (some y) = lwwOfLast k d2 (some y) := by
  obtain ⟨op, p⟩ := y
  cases op <;> rfl

theorem lookup_applyRecs (ops : List Op) (kd : KeyDir) (pos : Nat) (k : List Nat) :
    mapLookup (applyRecs kd pos ops) k
      = lwwOfLast k (mapLookup kd k)
          ((annotateOps pos ops).reverse.find? (fun e => opKey e.1 == k)) := by
  induction ops generalizing kd pos with
  | nil => rfl
  | cons op rest ih =>
    rw [show applyRecs kd pos (op :: rest)
        = applyRecs (applyRec kd op pos) (pos + (recordBytes op).length) rest from rfl]
    rw [show annotateOps pos (op :: rest)
        = (op, pos) :: annotateOps (pos + (recordBytes op).length) rest from rfl]
    rw [List.reverse_cons, List.find?_append]
    rw [ih (applyRec kd op pos) (pos + (recordBytes op).length)]
    cases hfind : (annotateOps (pos + (recordBytes op).length) rest).reverse.find?
        (fun e => opKey e.1 == k) with
    | some y =>
      exact lwwOfLast_some_congr k _ _ y
    | none =>
      by_cases hop : opKey op = k
      · rw [show ([(op, pos)]).find? (fun e => opKey e.1 == k) = some (op, pos) from by
          simp [List.find?, hop]]
        cases op with
        | set k1 v =>
          have hk1 : k1 = k := hop
          subst hk1
          rw [show applyRec kd (Op.set k1 v) pos
              = mapInsert kd k1 (pos + 8 + k1.length, v.length) from rfl]
          rw [mapLookup_insert_self]
          rfl
        | del k1 =>
          have hk1 : k1 = k := hop
          subst hk1
          rw [show applyRec kd (Op.del k1) pos = mapErase kd k1 from rfl]
          rw [mapLookup_erase_self]
          rfl
      · rw [show ([(op, pos)]).find? (fun e => opKey e.1 == k) = none from by
          simp [List.find?, beq_eq_false_iff_ne.mpr hop]]
        cases op with
        | set k1 v =>
          have hk1 : k1 ≠ k := hop
          rw [show applyRec kd (Op.set k1 v) pos
              = mapInsert kd k1 (pos + 8 + k1.length, v.length) from rfl]
          rw [mapLookup_insert_ne kd k k1 _ (Ne.symm hk1)]
          rfl
        | del k1 =>
          have hk1 : k1 ≠ k := hop
          rw [show applyRec kd (Op.del k1) pos = mapErase kd k1 from rfl]
          rw [mapLookup_erase_ne kd k k1 (Ne.symm hk1)]
          rfl

/-- C4: for every representable sequence of set/delete operations applied to
a fresh store, rebuilding the index from the written log with `load_index`
returns exactly the in-memory KeyDir, and that KeyDir is the last-writer-wins
projection of the sequence: a key is present, mapping to the offset and
length of its most recent value, iff the last record for it in file order is
a value; it is absent iff the last record is a tombstone or the key never
appeared. -/
theorem load_index_lww (ops : List Op) (hwf : ∀ op ∈ ops, WfOp op) :
    load_index (applyOps initStore ops).file = .ok (applyOps initStore ops).keydir ∧
    ∀ k, mapLookup (applyOps initStore ops).keydir k = lwwProjection ops k := by
  have happ := applyOps_encode ops [] [] hwf
  rw [show initStore = { file := ([] : List Nat), keydir := ([] : KeyDir) } from rfl, happ]
  constructor
  · exact loadIndexLoop_ops ops [] [] hwf
  · intro k
    exact lookup_applyRecs ops [] 0 k

/-- Witness for C4 on the repository's own `test_log_read_write` scenario
(with single-byte keys and values): set a, set b, set a again, delete b. -/
theorem load_index_lww_witness :
    (∀ op ∈ [Op.set [97] [49], Op.set [98] [50], Op.set [97] [51], Op.del [98]], WfOp op) ∧
    (load_index (applyOps initStore
        [Op.set [97] [49], Op.set [98] [50], Op.set [97] [51], Op.del [98]]).file
      = .ok (applyOps initStore
        [Op.set [97] [49], Op.set [98] [50], Op.set [97] [51], Op.del [98]]).keydir ∧
    ∀ k, mapLookup (applyOps initStore
        [Op.set [97] [49], Op.set [98] [50], Op.set [97] [51], Op.del [98]]).keydir k
      = lwwProjection [Op.set [97] [49], Op.set [98] [50], Op.set [97] [51], Op.del [98]] k) :=
  have hwf : ∀ op ∈ [Op.set [97] [49], Op.set [98] [50], Op.set [97] [51], Op.del [98]],
      WfOp op := by
    intro op hop
    simp only [List.mem_cons, List.not_mem_nil, or_false] at hop
    rcases hop with h | h | h | h <;> subst h <;> simp only [WfOp] <;> norm_num
  ⟨hwf, load_index_lww _ hwf⟩
